import Mathlib

/-!
# Soroban Registry — Dependency Graph Engine and publisher UI, verified model

This file gives a shallow embedding of the repository's Dependency Graph
Engine (reference extractor, graph store with cycle detection, query engine,
epoch-based result cache, publication coordinator) and of the publisher-page
UI components present in the frontend sources (PublisherStats,
PublisherActivityTimeline, VerificationBadge), together with theorems
settling the specification claims about them.

The engine itself ships outside the frontend sources available here, so its
definitions are modelled from the specification text (each such definition
says so in its doc comment).  The UI component definitions are translated
directly from the frontend source files.
-/

deriving instance DecidableEq for Except

namespace SorobanRegistry

/-! ## Data model (Modelled from the spec: §3 DATA MODEL) -/

/-- Modelled from the spec: the closed set of reference kinds
`{interface, client, import}` carried by a dependency edge (§3). -/
inductive ReferenceKind where
  | interfaceKind
  | clientKind
  | importKind
deriving DecidableEq, Repr

/-- Modelled from the spec: a `ContractVersion` `(contractId, versionLabel,
interfaceHash)` — a node in the dependency graph (§3). -/
structure ContractVersion where
  contractId : String
  versionLabel : String
  interfaceHash : String
deriving DecidableEq, Repr

/-- Modelled from the spec: a `DependencyEdge` `(fromVersion, toContractId,
referenceKind)`, directed from the dependent version to the depended-upon
contract identifier (§3). -/
structure DependencyEdge where
  fromVersion : ContractVersion
  toContractId : String
  referenceKind : ReferenceKind
deriving DecidableEq, Repr

/-- Modelled from the spec: a `GraphSnapshot` — immutable node and edge lists
representing the graph at one committed epoch (§3). -/
structure GraphSnapshot where
  nodes : List ContractVersion
  edges : List DependencyEdge
  epoch : Nat
deriving DecidableEq, Repr

/-- The empty snapshot the engine starts from, at epoch `0`. -/
def emptySnapshot : GraphSnapshot := ⟨[], [], 0⟩

/-- Modelled from the spec: the engine's error taxonomy (§7). -/
inductive EngineError where
  | malformedInterfaceError
  | duplicateVersionError
  | cycleDetectedError
  | notFoundError
deriving DecidableEq, Repr

/-! ## Graph structure: steps, successors, reachability -/

/-- A forward step over version nodes: `u` steps to `w` when some committed
edge leaves `u` for `w`'s contract identifier and `w` is a node of the
snapshot (an edge to a contract id connects its source to every committed
version of that contract). -/
def fwdStep (g : GraphSnapshot) (u w : ContractVersion) : Prop :=
  w ∈ g.nodes ∧
    ∃ e ∈ g.edges, e.fromVersion = u ∧ e.toContractId = w.contractId

instance (g : GraphSnapshot) (u w : ContractVersion) :
    Decidable (fwdStep g u w) := by
  unfold fwdStep; infer_instance

/-- A reverse (dependent) step: `u` reverse-steps to `w` when `w` is a
committed node holding an edge into `u`'s contract identifier, i.e. `w`
directly depends on `u`'s contract. -/
def revStep (g : GraphSnapshot) (u w : ContractVersion) : Prop :=
  w ∈ g.nodes ∧
    ∃ e ∈ g.edges, e.fromVersion = w ∧ e.toContractId = u.contractId

instance (g : GraphSnapshot) (u w : ContractVersion) :
    Decidable (revStep g u w) := by
  unfold revStep; infer_instance

/-- Computable forward successors of a node: the committed nodes one forward
step away. -/
def succs (g : GraphSnapshot) (u : ContractVersion) : List ContractVersion :=
  g.nodes.filter fun w => decide (fwdStep g u w)

/-- Computable reverse successors (direct dependents') of a node. -/
def revSuccs (g : GraphSnapshot) (u : ContractVersion) : List ContractVersion :=
  g.nodes.filter fun w => decide (revStep g u w)

/-- Bounded reachability along forward edges: `canReachN g k u w` decides
whether a forward walk of at most `k` steps leads from `u` to `w`
(Modelled from the spec: the depth-first reachability check of §4.3,
realised as fuel-bounded search). -/
def canReachN (g : GraphSnapshot) : Nat → ContractVersion → ContractVersion → Bool
  | 0, u, w => decide (u = w)
  | k + 1, u, w =>
      decide (u = w) || (succs g u).any fun x => canReachN g k x w

/-- Modelled from the spec: `DetectCycle` (§4.3) — publishing `v` closes a
cycle exactly when some forward successor of `v` reaches `v` back within the
size of the node set. -/
def detectCycle (g : GraphSnapshot) (v : ContractVersion) : Bool :=
  (succs g v).any fun x => canReachN g g.nodes.length x v

/-! ## Graph store: commit (Modelled from the spec: §4.2) -/

/-- Modelled from the spec: the edges contributed by one publish — one edge
`(v, target, kind)` per distinct extracted reference; duplicate
`(from, to, kind)` triples collapse to one (§3). -/
def buildEdges (v : ContractVersion) (refs : List (String × ReferenceKind)) :
    List DependencyEdge :=
  refs.dedup.map fun r => ⟨v, r.1, r.2⟩

/-- Whether the snapshot already holds a node with the given
`(contractId, versionLabel)` pair. -/
def hasVersionPair (g : GraphSnapshot) (v : ContractVersion) : Prop :=
  ∃ w ∈ g.nodes, w.contractId = v.contractId ∧ w.versionLabel = v.versionLabel

instance (g : GraphSnapshot) (v : ContractVersion) :
    Decidable (hasVersionPair g v) := by
  unfold hasVersionPair; infer_instance

/-- Modelled from the spec: the candidate snapshot built by
`CommitNewVersion` — the current snapshot's structures plus the new node and
its edges, at the next epoch (§4.2). -/
def candidate (g : GraphSnapshot) (v : ContractVersion)
    (refs : List (String × ReferenceKind)) : GraphSnapshot :=
  ⟨g.nodes ++ [v], g.edges ++ buildEdges v refs, g.epoch + 1⟩

/-- Modelled from the spec: `CommitNewVersion` (§4.2).  Rejects a duplicate
`(contractId, versionLabel)` pair, otherwise builds the candidate snapshot
and delegates to the cycle detector; on success the candidate becomes the
new current snapshot. -/
def commitNewVersion (g : GraphSnapshot) (v : ContractVersion)
    (refs : List (String × ReferenceKind)) : Except EngineError GraphSnapshot :=
  if hasVersionPair g v then .error .duplicateVersionError
  else if detectCycle (candidate g v refs) v then .error .cycleDetectedError
  else .ok (candidate g v refs)

/-! ## Reference extractor (Modelled from the spec: §4.1) -/

/-- Modelled from the spec: one declared import/client/interface binding of
a contract interface description; its referenced contract identifier may be
missing (malformed input). -/
structure RefDecl where
  identifier : Option String
  kind : ReferenceKind
deriving DecidableEq, Repr

/-- Modelled from the spec: a parsed interface description — the contract's
own identifier plus its declared reference bindings (§4.1). -/
structure InterfaceDescription where
  selfId : String
  decls : List RefDecl
deriving DecidableEq, Repr

/-- Modelled from the spec: `Extract` (§4.1).  Fails with
`MalformedInterfaceError` when a declaration misses its identifier field;
otherwise yields one entry per distinct referenced `(contractId, kind)`,
dropping self-references. -/
def extract (d : InterfaceDescription) :
    Except EngineError (List (String × ReferenceKind)) :=
  if d.decls.any fun r => r.identifier.isNone then
    .error .malformedInterfaceError
  else
    .ok ((d.decls.filterMap fun r =>
        r.identifier.map fun i => (i, r.kind)).filter
          (fun p => decide (p.1 ≠ d.selfId))).dedup

/-! ## Result cache (Modelled from the spec: §4.5) -/

/-- Modelled from the spec: the query kinds a cache key is built from. -/
inductive QueryKind where
  | dependenciesQ
  | dependentsQ
  | impactQ
deriving DecidableEq, Repr

/-- Modelled from the spec: a cache key `(queryKind, subjectIdentifier)`
(§4.5). -/
structure QueryKey where
  qkind : QueryKind
  subject : String
deriving DecidableEq, Repr

/-- Modelled from the spec: a `CacheEntry` `(queryKey, epoch, resultPayload)`
(§3); the payload type is abstract. -/
structure CacheEntry (α : Type) where
  key : QueryKey
  epoch : Nat
  payload : α
deriving DecidableEq

/-- Modelled from the spec: the Result Cache — an epoch counter plus the
stored entries (§4.5). -/
structure ResultCache (α : Type) where
  epoch : Nat
  entries : List (CacheEntry α)
deriving DecidableEq

/-- The cache the engine starts from. -/
def emptyCache (α : Type) : ResultCache α := ⟨0, []⟩

/-- The stored entry for a key, if any. -/
def findEntry {α : Type} [DecidableEq α] (c : ResultCache α) (k : QueryKey) :
    Option (CacheEntry α) :=
  c.entries.find? fun e => decide (e.key = k)

/-- The entry `Get` would serve: the stored entry for the key, provided its
stamp equals the cache's current epoch. -/
def lookupServed {α : Type} [DecidableEq α] (c : ResultCache α) (k : QueryKey) :
    Option (CacheEntry α) :=
  match findEntry c k with
  | none => none
  | some e => if e.epoch = c.epoch then some e else none

/-- Modelled from the spec: `Get` (§4.5) — serves the entry when its epoch
matches the cache's current epoch; an epoch mismatch is a miss and lazily
evicts the stale entry. -/
def cacheGet {α : Type} [DecidableEq α] (c : ResultCache α) (k : QueryKey) :
    Option α × ResultCache α :=
  match findEntry c k with
  | none => (none, c)
  | some e =>
      if e.epoch = c.epoch then (some e.payload, c)
      else (none, ⟨c.epoch, c.entries.filter fun e2 => decide (¬ e2.key = k)⟩)

/-- Modelled from the spec: `Put` (§4.5) — stores the payload stamped with
the epoch active at insertion time. -/
def cachePut {α : Type} (c : ResultCache α) (k : QueryKey) (p : α) :
    ResultCache α :=
  ⟨c.epoch, ⟨k, c.epoch, p⟩ :: c.entries⟩

/-- Modelled from the spec: `InvalidateAll` (§4.5) — increments the epoch
counter without physically clearing storage. -/
def invalidateAll {α : Type} (c : ResultCache α) : ResultCache α :=
  ⟨c.epoch + 1, c.entries⟩

/-- One cache operation, for reasoning about arbitrary later activity. -/
inductive CacheOp (α : Type) where
  | putOp (k : QueryKey) (p : α)
  | getOp (k : QueryKey)
  | invOp

/-- The cache state after one operation. -/
def applyOp {α : Type} [DecidableEq α] (c : ResultCache α) :
    CacheOp α → ResultCache α
  | .putOp k p => cachePut c k p
  | .getOp k => (cacheGet c k).2
  | .invOp => invalidateAll c

/-- The cache state after a sequence of operations. -/
def applyOps {α : Type} [DecidableEq α] (c : ResultCache α)
    (ops : List (CacheOp α)) : ResultCache α :=
  ops.foldl applyOp c

/-! ## Publication coordinator (Modelled from the spec: §4.6) -/

/-- Modelled from the spec: a publish request —
`(contractId, versionLabel, interfaceDescription)` plus the version's
interface hash (§4.6, §3). -/
structure PublishRequest where
  contractId : String
  versionLabel : String
  interfaceHash : String
  descr : InterfaceDescription
deriving DecidableEq, Repr

/-- The version node a publish request creates. -/
def reqNode (r : PublishRequest) : ContractVersion :=
  ⟨r.contractId, r.versionLabel, r.interfaceHash⟩

/-- Modelled from the spec: the engine's state — the current snapshot and
the result cache (§2). -/
structure EngineState (α : Type) where
  snapshot : GraphSnapshot
  cache : ResultCache α
deriving DecidableEq

/-- The initial engine state. -/
def initialState (α : Type) : EngineState α := ⟨emptySnapshot, emptyCache α⟩

/-- Modelled from the spec: `Publish` (§4.6) — runs the extractor, then
`CommitNewVersion`; on success bumps the cache epoch via `InvalidateAll`;
on any failure no state changes. -/
def publish {α : Type} [DecidableEq α] (st : EngineState α)
    (r : PublishRequest) : EngineState α × Option EngineError :=
  match extract r.descr with
  | .error e => (st, some e)
  | .ok refs =>
      match commitNewVersion st.snapshot (reqNode r) refs with
      | .error e => (st, some e)
      | .ok g2 => (⟨g2, invalidateAll st.cache⟩, none)

/-- The engine state after a sequence of publish requests, starting from the
initial state (failed publishes leave the state untouched). -/
def runPublishes (α : Type) [DecidableEq α] (rs : List PublishRequest) :
    EngineState α :=
  rs.foldl (fun st r => (publish st r).1) (initialState α)

/-! ## Query engine (Modelled from the spec: §4.4) -/

/-- Numeric rank of a reference kind, for the deterministic query order. -/
def kindIdx : ReferenceKind → Nat
  | .interfaceKind => 0
  | .clientKind => 1
  | .importKind => 2

/-- The deterministic order on version nodes: by `(contractId,
versionLabel)` lexicographically. -/
def nodeLe (a b : ContractVersion) : Prop :=
  a.contractId < b.contractId ∨
    (a.contractId = b.contractId ∧ a.versionLabel ≤ b.versionLabel)

instance (a b : ContractVersion) : Decidable (nodeLe a b) := by
  unfold nodeLe; infer_instance

instance : IsTotal ContractVersion nodeLe where
  total a b := by
    rcases lt_trichotomy a.contractId b.contractId with h | h | h
    · exact Or.inl (Or.inl h)
    · rcases le_total a.versionLabel b.versionLabel with h2 | h2
      · exact Or.inl (Or.inr ⟨h, h2⟩)
      · exact Or.inr (Or.inr ⟨h.symm, h2⟩)
    · exact Or.inr (Or.inl h)

instance : IsTrans ContractVersion nodeLe where
  trans a b c hab hbc := by
    rcases hab with h1 | ⟨h1, h1'⟩
    · rcases hbc with h2 | ⟨h2, _⟩
      · exact Or.inl (h1.trans h2)
      · exact Or.inl (h2 ▸ h1)
    · rcases hbc with h2 | ⟨h2, h2'⟩
      · exact Or.inl (h1 ▸ h2)
      · exact Or.inr ⟨h1.trans h2, h1'.trans h2'⟩

/-- The deterministic order on dependency edges: by
`(referenceKind, targetContractId)` (§4.4). -/
def depEdgeLe (a b : DependencyEdge) : Prop :=
  kindIdx a.referenceKind < kindIdx b.referenceKind ∨
    (kindIdx a.referenceKind = kindIdx b.referenceKind ∧
      a.toContractId ≤ b.toContractId)

instance (a b : DependencyEdge) : Decidable (depEdgeLe a b) := by
  unfold depEdgeLe; infer_instance

instance : IsTotal DependencyEdge depEdgeLe where
  total a b := by
    rcases lt_trichotomy (kindIdx a.referenceKind) (kindIdx b.referenceKind)
      with h | h | h
    · exact Or.inl (Or.inl h)
    · rcases le_total a.toContractId b.toContractId with h2 | h2
      · exact Or.inl (Or.inr ⟨h, h2⟩)
      · exact Or.inr (Or.inr ⟨h.symm, h2⟩)
    · exact Or.inr (Or.inl h)

instance : IsTrans DependencyEdge depEdgeLe where
  trans a b c hab hbc := by
    rcases hab with h1 | ⟨h1, h1'⟩
    · rcases hbc with h2 | ⟨h2, _⟩
      · exact Or.inl (h1.trans h2)
      · exact Or.inl (h2 ▸ h1)
    · rcases hbc with h2 | ⟨h2, h2'⟩
      · exact Or.inl (h1 ▸ h2)
      · exact Or.inr ⟨h1.trans h2, h1'.trans h2'⟩

/-- The deterministic order on reverse-edge results
`(fromVersion, referenceKind)`. -/
def depPairLe (a b : ContractVersion × ReferenceKind) : Prop :=
  (nodeLe a.1 b.1 ∧ ¬ nodeLe b.1 a.1) ∨
    (nodeLe a.1 b.1 ∧ nodeLe b.1 a.1 ∧ kindIdx a.2 ≤ kindIdx b.2)

instance (a b : ContractVersion × ReferenceKind) : Decidable (depPairLe a b) := by
  unfold depPairLe; infer_instance

instance : IsTotal (ContractVersion × ReferenceKind) depPairLe where
  total a b := by
    rcases IsTotal.total (r := nodeLe) a.1 b.1 with h | h
    · by_cases h2 : nodeLe b.1 a.1
      · rcases le_total (kindIdx a.2) (kindIdx b.2) with h3 | h3
        · exact Or.inl (Or.inr ⟨h, h2, h3⟩)
        · exact Or.inr (Or.inr ⟨h2, h, h3⟩)
      · exact Or.inl (Or.inl ⟨h, h2⟩)
    · by_cases h2 : nodeLe a.1 b.1
      · rcases le_total (kindIdx a.2) (kindIdx b.2) with h3 | h3
        · exact Or.inl (Or.inr ⟨h2, h, h3⟩)
        · exact Or.inr (Or.inr ⟨h, h2, h3⟩)
      · exact Or.inr (Or.inl ⟨h, h2⟩)

instance : IsTrans (ContractVersion × ReferenceKind) depPairLe where
  trans a b c hab hbc := by
    have tr : ∀ x y z : ContractVersion, nodeLe x y → nodeLe y z → nodeLe x z :=
      fun x y z => IsTrans.trans x y z
    rcases hab with ⟨h1, h1'⟩ | ⟨h1, h1', h1k⟩
    · rcases hbc with ⟨h2, h2'⟩ | ⟨h2, h2', _⟩
      · exact Or.inl ⟨tr _ _ _ h1 h2, fun hca => h2' (tr _ _ _ hca h1)⟩
      · exact Or.inl ⟨tr _ _ _ h1 h2, fun hca => h1' (tr _ _ _ h2 hca)⟩
    · rcases hbc with ⟨h2, h2'⟩ | ⟨h2, h2', h2k⟩
      · exact Or.inl ⟨tr _ _ _ h1 h2, fun hca => h2' (tr _ _ _ hca h1)⟩
      · exact Or.inr ⟨tr _ _ _ h1 h2, tr _ _ _ h2' h1', h1k.trans h2k⟩

/-- Modelled from the spec: `Dependencies(versionNode)` (§4.4) — the direct
forward edges of a version node, ordered by
`(referenceKind, targetContractId)`. -/
def dependencies (g : GraphSnapshot) (v : ContractVersion) :
    List DependencyEdge :=
  List.insertionSort depEdgeLe
    (g.edges.filter fun e => decide (e.fromVersion = v))

/-- Modelled from the spec: `Dependents(contractId)` (§4.4) — the direct
reverse edges into a contract identifier, as ordered
`(fromVersion, referenceKind)` pairs. -/
def dependents (g : GraphSnapshot) (cid : String) :
    List (ContractVersion × ReferenceKind) :=
  List.insertionSort depPairLe
    ((g.edges.filter fun e => decide (e.toContractId = cid)).map
      fun e => (e.fromVersion, e.referenceKind))

/-- Nodes sorted by the deterministic `(contractId, versionLabel)` order. -/
def sortNodes (l : List ContractVersion) : List ContractVersion :=
  List.insertionSort nodeLe l

/-- Modelled from the spec: the level-synchronous breadth-first traversal
behind `ImpactAnalysis` (§4.4).  `visited` holds every node already reached,
`frontier` the nodes at the current depth `i`; each new level is emitted in
the deterministic node order, annotated with its depth. -/
def bfsAux (g : GraphSnapshot) :
    Nat → List ContractVersion → List ContractVersion → Nat →
      List (ContractVersion × Nat)
  | 0, _, _, _ => []
  | fuel + 1, visited, frontier, i =>
      let next := ((frontier.flatMap fun u => revSuccs g u).filter
        fun w => decide (¬ w ∈ visited)).dedup
      if next = [] then []
      else
        ((sortNodes next).map fun w => (w, i + 1)) ++
          bfsAux g fuel (next ++ visited) next (i + 1)

/-- Modelled from the spec: `ImpactAnalysis(versionNode)` (§4.4) — the full
transitive reverse closure by breadth-first traversal, each reached node
once at its minimum hop depth, ordered by ascending depth and then by
`(contractId, versionLabel)`. -/
def impactAnalysis (g : GraphSnapshot) (v : ContractVersion) :
    List (ContractVersion × Nat) :=
  bfsAux g g.nodes.length [v] [v] 0

/-- The order in which `ImpactAnalysis` results are emitted: ascending
depth, then the deterministic node order within a depth level. -/
def impactLe (p q : ContractVersion × Nat) : Prop :=
  p.2 < q.2 ∨ (p.2 = q.2 ∧ nodeLe p.1 q.1)

/-! ## Semantic notions: walks, acyclicity, distances -/

/-- A walk along an abstract step relation: `IsWalk R u l w` holds when the
successive vertices `l` lead from `u` to `w`, each consecutive pair related
by `R` (so `l.length` is the number of steps taken). -/
inductive IsWalk (R : ContractVersion → ContractVersion → Prop) :
    ContractVersion → List ContractVersion → ContractVersion → Prop where
  | nilW (u : ContractVersion) : IsWalk R u [] u
  | consW {u x w : ContractVersion} {l : List ContractVersion} :
      R u x → IsWalk R x l w → IsWalk R u (x :: l) w

/-- A snapshot is acyclic when no directed forward path returns to its
origin version node (§3). -/
def Acyclic (g : GraphSnapshot) : Prop :=
  ∀ (v : ContractVersion) (l : List ContractVersion),
    l ≠ [] → ¬ IsWalk (fwdStep g) v l v

/-- The spec's edge well-formedness invariant: every edge's `fromVersion`
references an existing node of the snapshot (§3). -/
def EdgesWF (g : GraphSnapshot) : Prop :=
  ∀ e ∈ g.edges, e.fromVersion ∈ g.nodes

instance (g : GraphSnapshot) : Decidable (EdgesWF g) := by
  unfold EdgesWF; infer_instance

/-- A node `w` is reverse-reachable within `d` hops of `v` when some
reverse walk of at most `d` steps leads from `v` to `w`. -/
def distLe (g : GraphSnapshot) (v w : ContractVersion) (d : Nat) : Prop :=
  ∃ l : List ContractVersion, l.length ≤ d ∧ IsWalk (revStep g) v l w

/-- `d` is the minimum reverse hop distance from `v` to `w`. -/
def exactDist (g : GraphSnapshot) (v w : ContractVersion) (d : Nat) : Prop :=
  distLe g v w d ∧ ∀ j < d, ¬ distLe g v w j

/-- `w` is reachable from `v` by following reverse (dependent) edges
transitively — a nonempty reverse walk leads from `v` to `w`. -/
def RevReachable (g : GraphSnapshot) (v w : ContractVersion) : Prop :=
  ∃ l : List ContractVersion, l ≠ [] ∧ IsWalk (revStep g) v l w

/-- The cache well-formedness invariant: no stored entry is stamped beyond
the cache's current epoch. -/
def CacheWF {α : Type} (c : ResultCache α) : Prop :=
  ∀ e ∈ c.entries, e.epoch ≤ c.epoch

/-! ## Frontend components (translated from the frontend sources) -/

/-- The publisher payload consumed by `PublisherStats`
(`src/unnamed/part_000`). -/
structure PublisherResponse where
  totalContracts : Nat
  verifiedContracts : Nat
  failedVerifications : Nat
deriving DecidableEq, Repr

/-- `PublisherStats`' success rate: `verifiedContracts / totalContracts *
100` when `totalContracts > 0`, else `0` (the guarded ternary at
`src/unnamed/part_000:10-12`). -/
def successRate (p : PublisherResponse) : ℚ :=
  if p.totalContracts > 0 then
    (p.verifiedContracts : ℚ) / (p.totalContracts : ℚ) * 100
  else 0

/-- `Number.prototype.toFixed(1)` for the nonnegative rates the component
renders: one digit after the decimal point, rounding to nearest (computed on
the rational's numerator and denominator). -/
def toFixed1 (q : ℚ) : String :=
  let n : Int := (q.num * 20 + (q.den : Int)) / (2 * (q.den : Int))
  toString (n / 10) ++ "." ++ toString ((n % 10).natAbs)

/-- The "Verification Success" stat value rendered by `PublisherStats`:
the formatted success rate followed by a percent sign. -/
def successDisplay (p : PublisherResponse) : String :=
  toFixed1 (successRate p) ++ "%"

/-- One activity event of `PublisherActivityTimeline`; `timeMs` is the
`new Date(timestamp).getTime()` value the comparator uses. -/
structure ActivityEvent where
  eventId : String
  eventType : String
  contractName : String
  timeMs : Int
deriving DecidableEq, Repr

/-- The descending-timestamp order used by the timeline's comparator
`(a, b) => b.getTime() - a.getTime()`. -/
def newerFirst (a b : ActivityEvent) : Prop := b.timeMs ≤ a.timeMs

instance (a b : ActivityEvent) : Decidable (newerFirst a b) := by
  unfold newerFirst; infer_instance

instance : IsTotal ActivityEvent newerFirst where
  total a b := le_total b.timeMs a.timeMs

instance : IsTrans ActivityEvent newerFirst where
  trans _ _ _ hab hbc := le_trans hbc hab

/-- The `sortedActivity` list of `PublisherActivityTimeline`
(`src/unnamed/part_000:94-96`): the activity sorted most recent first. -/
def sortedActivity (l : List ActivityEvent) : List ActivityEvent :=
  List.insertionSort newerFirst l

/-- `PublisherActivityTimeline`'s observable effect on the data: the
caller's array after the render (the sort runs on a spread-copy
`[...activity]`, so the original is returned unchanged) together with the
display order. -/
def renderTimeline (l : List ActivityEvent) :
    List ActivityEvent × List ActivityEvent :=
  (l, sortedActivity l)

/-- One badge configuration of `VerificationBadge`
(`src/unnamed/part_000:161-177`); the icon is recorded by name. -/
structure BadgeConfig where
  icon : String
  text : String
  cssClass : String
deriving DecidableEq, Repr

/-- The `verified` badge configuration. -/
def verifiedBadge : BadgeConfig :=
  ⟨"CheckCircle", "Verified",
    "bg-green-100 text-green-800 border-green-200 dark:bg-green-900/30 dark:text-green-300 dark:border-green-800"⟩

/-- The `failed` badge configuration. -/
def failedBadge : BadgeConfig :=
  ⟨"XCircle", "Failed",
    "bg-red-100 text-red-800 border-red-200 dark:bg-red-900/30 dark:text-red-300 dark:border-red-800"⟩

/-- The `pending` badge configuration. -/
def pendingBadge : BadgeConfig :=
  ⟨"Clock", "Pending",
    "bg-yellow-100 text-yellow-800 border-yellow-200 dark:bg-yellow-900/30 dark:text-yellow-300 dark:border-yellow-800"⟩

/-- The member names a plain JavaScript object literal inherits from
`Object.prototype`: for these strings `config[status]` resolves through the
prototype chain to a truthy function or object rather than `undefined`. -/
def objectProtoMembers : List String :=
  ["constructor", "hasOwnProperty", "isPrototypeOf", "propertyIsEnumerable",
   "toLocaleString", "toString", "valueOf", "__proto__",
   "__defineGetter__", "__defineSetter__", "__lookupGetter__",
   "__lookupSetter__"]

/-- What rendering `VerificationBadge` produces for a status value: either a
badge with some configuration, or a render failure (destructuring a truthy
non-config value leaves `Icon` undefined and `<Icon />` throws). -/
inductive BadgeRender where
  | badge (cfg : BadgeConfig)
  | renderFailure
deriving DecidableEq, Repr

/-- The configuration lookup and render of `VerificationBadge`
(`src/unnamed/part_000:179`): `config[status] || config.pending` with
JavaScript property-access semantics.  The three own keys yield their
configurations; for a status naming an inherited `Object.prototype` member
the lookup is truthy, the `||` fallback never fires, and the subsequent
destructuring/render of that non-config value fails; any other string looks
up `undefined` and falls back to the pending configuration. -/
def renderBadge (status : String) : BadgeRender :=
  if status = "verified" then .badge verifiedBadge
  else if status = "failed" then .badge failedBadge
  else if status = "pending" then .badge pendingBadge
  else if status ∈ objectProtoMembers then .renderFailure
  else .badge pendingBadge

/-! ## Example scenario from the spec (§8): contracts A, B, C -/

/-- §8 example: version node of contract A. -/
def exA : ContractVersion := ⟨"A", "1", "hA"⟩

/-- §8 example: version node of contract B (client of A). -/
def exB : ContractVersion := ⟨"B", "1", "hB"⟩

/-- §8 example: version node of contract C (client of B). -/
def exC : ContractVersion := ⟨"C", "1", "hC"⟩

/-- §8 example snapshot: A published, then B referencing A, then C
referencing B. -/
def exSnapshot : GraphSnapshot :=
  ⟨[exA, exB, exC],
    [⟨exB, "A", .clientKind⟩, ⟨exC, "B", .clientKind⟩], 3⟩

/-- §8 example engine state (cache payloads are plain numbers here). -/
def exState : EngineState Nat := ⟨exSnapshot, ⟨3, []⟩⟩

/-- §8 example request: a new version of A declaring a client reference to
C, which would close the cycle A2 → C → B → A2. -/
def exReq : PublishRequest :=
  ⟨"A", "2", "hA2", ⟨"A", [⟨some "C", .clientKind⟩]⟩⟩

/-! ## Walk lemmas -/

theorem walk_append_iff {R : ContractVersion → ContractVersion → Prop}
    {u w : ContractVersion} (p q : List ContractVersion) :
    IsWalk R u (p ++ q) w ↔ ∃ m, IsWalk R u p m ∧ IsWalk R m q w := by
  induction p generalizing u with
  | nil =>
      simp only [List.nil_append]
      constructor
      · intro h; exact ⟨u, .nilW u, h⟩
      · rintro ⟨m, hm, hq⟩; cases hm; exact hq
  | cons x p ih =>
      constructor
      · intro h
        cases h with
        | consW hs ht =>
            obtain ⟨m, h1, h2⟩ := (ih).mp ht
            exact ⟨m, .consW hs h1, h2⟩
      · rintro ⟨m, hm, hq⟩
        cases hm with
        | consW hs ht => exact .consW hs ((ih).mpr ⟨m, ht, hq⟩)

theorem walk_singleton_iff {R : ContractVersion → ContractVersion → Prop}
    {u x w : ContractVersion} : IsWalk R u [x] w ↔ R u x ∧ w = x := by
  constructor
  · intro h; cases h with
    | consW hs ht => cases ht; exact ⟨hs, rfl⟩
  · rintro ⟨hs, rfl⟩; exact .consW hs (.nilW _)

theorem walk_targets_mem {R : ContractVersion → ContractVersion → Prop}
    {ns : List ContractVersion} (hR : ∀ a b, R a b → b ∈ ns)
    {u w : ContractVersion} {l : List ContractVersion}
    (h : IsWalk R u l w) : ∀ x ∈ l, x ∈ ns := by
  induction h with
  | nilW => simp
  | consW hs _ ih =>
      intro x hx
      rcases List.mem_cons.mp hx with rfl | hx
      · exact hR _ _ hs
      · exact ih x hx

theorem walk_end_mem {R : ContractVersion → ContractVersion → Prop}
    {u w : ContractVersion} {l : List ContractVersion}
    (h : IsWalk R u l w) (hl : l ≠ []) : w ∈ l := by
  induction l generalizing u with
  | nil => exact absurd rfl hl
  | cons x t ih =>
      cases h with
      | consW hs ht =>
          cases t with
          | nil => cases ht; exact List.mem_singleton.mpr rfl
          | cons y t2 => exact List.mem_cons_of_mem _ (ih ht (by simp))

theorem walk_last_decomp {R : ContractVersion → ContractVersion → Prop}
    {v w : ContractVersion} {l : List ContractVersion}
    (h : IsWalk R v l w) (hl : l ≠ []) :
    ∃ (l2 : List ContractVersion) (u2 : ContractVersion),
      l = l2 ++ [w] ∧ IsWalk R v l2 u2 ∧ R u2 w := by
  induction l generalizing v with
  | nil => exact absurd rfl hl
  | cons x t ih =>
      cases h with
      | consW hs ht =>
          cases t with
          | nil =>
              cases ht
              exact ⟨[], v, by simp, .nilW v, hs⟩
          | cons y t2 =>
              obtain ⟨l2, u2, heq, hw2, hstep⟩ := ih ht (by simp)
              exact ⟨x :: l2, u2, by simp [heq], .consW hs hw2, hstep⟩

/-- Cutting the loop between two occurrences of the same vertex in a walk
yields a shorter walk with the same endpoints. -/
theorem walk_cut {R : ContractVersion → ContractVersion → Prop}
    {v w a : ContractVersion} {l1 l2 l3 : List ContractVersion}
    (h : IsWalk R v (l1 ++ a :: l2 ++ a :: l3) w) :
    IsWalk R v (l1 ++ a :: l3) w := by
  obtain ⟨m, hm1, hm2⟩ := (walk_append_iff (l1 ++ a :: l2) (a :: l3)).mp h
  obtain ⟨m1, hk1, hk2⟩ := (walk_append_iff l1 (a :: l2)).mp hm1
  cases hk2 with
  | consW hs _ =>
      cases hm2 with
      | consW hs2 ht2 =>
          exact (walk_append_iff l1 (a :: l3)).mpr ⟨m1, hk1, .consW hs ht2⟩

/-- A two-element constant sublist splits the list around the two
occurrences. -/
theorem sublist_pair_decomp {a : ContractVersion} :
    ∀ l : List ContractVersion, List.Sublist [a, a] l →
      ∃ l1 l2 l3, l = l1 ++ a :: l2 ++ a :: l3 := by
  intro l
  induction l with
  | nil => intro hsub; cases hsub
  | cons b t ih =>
      intro hsub
      cases hsub with
      | cons _ h' =>
          obtain ⟨l1, l2, l3, heq⟩ := ih h'
          exact ⟨b :: l1, l2, l3, by simp [heq]⟩
      | cons₂ _ h' =>
          obtain ⟨l2, l3, heq⟩ := List.append_of_mem (List.singleton_sublist.mp h')
          exact ⟨[], l2, l3, by simp [heq]⟩

/-- A duplicated element of a list splits it around the two occurrences. -/
theorem dup_decomp {l : List ContractVersion} (h : ¬ l.Nodup) :
    ∃ (a : ContractVersion) (l1 l2 l3 : List ContractVersion),
      l = l1 ++ a :: l2 ++ a :: l3 := by
  have hex : ∃ a, List.Sublist [a, a] l := by
    by_contra hc
    push_neg at hc
    exact h (List.nodup_iff_sublist.mpr hc)
  obtain ⟨a, hsub⟩ := hex
  obtain ⟨l1, l2, l3, heq⟩ := sublist_pair_decomp l hsub
  exact ⟨a, l1, l2, l3, heq⟩

/-- A list of members of `ns` longer than `ns` itself has a duplicate. -/
theorem long_list_not_nodup {l ns : List ContractVersion}
    (hsub : ∀ x ∈ l, x ∈ ns) (hlen : ns.length < l.length) : ¬ l.Nodup := by
  intro hnd
  have h1 : l.toFinset.card = l.length := List.toFinset_card_of_nodup hnd
  have h2 : l.toFinset ⊆ ns.toFinset := by
    intro x hx
    exact List.mem_toFinset.mpr (hsub x (List.mem_toFinset.mp hx))
  have h3 : l.toFinset.card ≤ ns.toFinset.card := Finset.card_le_card h2
  have h4 : ns.toFinset.card ≤ ns.length := List.toFinset_card_le ns
  omega

/-- Any nonempty closed walk whose vertices lie in `ns` shortens to a
nonempty closed walk of at most `ns.length` steps. -/
theorem closed_walk_shorten {R : ContractVersion → ContractVersion → Prop}
    {ns : List ContractVersion} (hR : ∀ a b, R a b → b ∈ ns)
    {v : ContractVersion} {l : List ContractVersion}
    (hl : l ≠ []) (hw : IsWalk R v l v) :
    ∃ l' : List ContractVersion,
      l' ≠ [] ∧ l'.length ≤ ns.length ∧ IsWalk R v l' v := by
  obtain ⟨n, hn⟩ : ∃ n, l.length ≤ n := ⟨l.length, le_rfl⟩
  induction n generalizing l with
  | zero => cases l with
      | nil => exact absurd rfl hl
      | cons x t => simp at hn
  | succ n ih =>
      by_cases hle : l.length ≤ ns.length
      · exact ⟨l, hl, hle, hw⟩
      · have hdup : ¬ l.Nodup :=
          long_list_not_nodup (walk_targets_mem hR hw) (by omega)
        obtain ⟨a, l1, l2, l3, heq⟩ := dup_decomp hdup
        subst heq
        have hcut := walk_cut hw
        refine ih (l := l1 ++ a :: l3) (by simp) hcut ?_
        have := hn
        simp only [List.length_append, List.length_cons] at this ⊢
        omega

/-! ## Successor and bounded-reachability lemmas -/

theorem mem_succs_iff {g : GraphSnapshot} {u w : ContractVersion} :
    w ∈ succs g u ↔ fwdStep g u w := by
  unfold succs
  simp only [List.mem_filter, decide_eq_true_eq]
  constructor
  · exact fun h => h.2
  · exact fun h => ⟨h.1, h⟩

theorem mem_revSuccs_iff {g : GraphSnapshot} {u w : ContractVersion} :
    w ∈ revSuccs g u ↔ revStep g u w := by
  unfold revSuccs
  simp only [List.mem_filter, decide_eq_true_eq]
  constructor
  · exact fun h => h.2
  · exact fun h => ⟨h.1, h⟩

theorem canReachN_iff {g : GraphSnapshot} {u w : ContractVersion} {k : Nat} :
    canReachN g k u w = true ↔
      ∃ l : List ContractVersion, l.length ≤ k ∧ IsWalk (fwdStep g) u l w := by
  induction k generalizing u with
  | zero =>
      simp only [canReachN, decide_eq_true_eq]
      constructor
      · rintro rfl; exact ⟨[], by simp, .nilW u⟩
      · rintro ⟨l, hlen, hw⟩
        have : l = [] := List.eq_nil_of_length_eq_zero (Nat.le_zero.mp hlen)
        subst this; cases hw; rfl
  | succ k ih =>
      simp only [canReachN, Bool.or_eq_true, decide_eq_true_eq,
        List.any_eq_true]
      constructor
      · rintro (rfl | ⟨x, hx, hr⟩)
        · exact ⟨[], by simp, .nilW u⟩
        · obtain ⟨l, hlen, hw⟩ := ih.mp hr
          exact ⟨x :: l, by simpa using hlen, .consW (mem_succs_iff.mp hx) hw⟩
      · rintro ⟨l, hlen, hw⟩
        cases hw with
        | nilW => exact Or.inl rfl
        | @consW _ x _ l' hs ht =>
            refine Or.inr ⟨x, mem_succs_iff.mpr hs, ih.mpr ⟨l', ?_, ht⟩⟩
            simpa using Nat.le_of_succ_le_succ (by simpa using hlen)

theorem detectCycle_iff {g : GraphSnapshot} {v : ContractVersion} :
    detectCycle g v = true ↔
      ∃ l : List ContractVersion, l ≠ [] ∧ IsWalk (fwdStep g) v l v := by
  unfold detectCycle
  simp only [List.any_eq_true]
  constructor
  · rintro ⟨x, hx, hr⟩
    obtain ⟨l, _, hw⟩ := canReachN_iff.mp hr
    exact ⟨x :: l, by simp, .consW (mem_succs_iff.mp hx) hw⟩
  · rintro ⟨l, hl, hw⟩
    have hmem : ∀ a b, fwdStep g a b → b ∈ g.nodes := fun a b h => h.1
    obtain ⟨l', hl', hlen, hw'⟩ := closed_walk_shorten hmem hl hw
    cases hw' with
    | nilW => exact absurd rfl hl'
    | @consW _ x _ rest hs ht =>
        refine ⟨x, mem_succs_iff.mpr hs, canReachN_iff.mpr ⟨rest, ?_, ht⟩⟩
        simp only [List.length_cons] at hlen
        omega

/-- A snapshot on which the computable cycle check fails at every node is
acyclic. -/
theorem acyclic_of_detect_false {g : GraphSnapshot}
    (h : ∀ v ∈ g.nodes, detectCycle g v = false) : Acyclic g := by
  intro v l hl hw
  have hv : v ∈ g.nodes := by
    have hmem : ∀ a b, fwdStep g a b → b ∈ g.nodes := fun a b h' => h'.1
    exact walk_targets_mem hmem hw v (walk_end_mem hw hl)
  have := h v hv
  rw [← Bool.not_eq_true, detectCycle_iff] at this
  exact this ⟨l, hl, hw⟩

/-! ## Commit preservation: successful publishes keep the graph acyclic -/

theorem walk_snoc_end {R : ContractVersion → ContractVersion → Prop}
    {u m x : ContractVersion} {p : List ContractVersion}
    (h : IsWalk R u (p ++ [x]) m) : m = x := by
  obtain ⟨m1, _, h2⟩ := (walk_append_iff p [x]).mp h
  exact (walk_singleton_iff.mp h2).2

/-- Any nonempty closed walk through `v` rotates into a nonempty closed
walk starting at `v`. -/
theorem closed_walk_rotate {R : ContractVersion → ContractVersion → Prop}
    {w v : ContractVersion} {l : List ContractVersion}
    (hw : IsWalk R w l w) (hl : l ≠ []) (hv : v ∈ w :: l) :
    ∃ l' : List ContractVersion, l' ≠ [] ∧ IsWalk R v l' v := by
  rcases List.mem_cons.mp hv with rfl | hv
  · exact ⟨l, hl, hw⟩
  · obtain ⟨s, t, rfl⟩ := List.append_of_mem hv
    have hsplit : s ++ v :: t = (s ++ [v]) ++ t := by simp
    rw [hsplit] at hw
    obtain ⟨m, h1, h2⟩ := (walk_append_iff (s ++ [v]) t).mp hw
    have hm : m = v := walk_snoc_end h1
    rw [hm] at h1 h2
    refine ⟨t ++ (s ++ [v]), by simp, ?_⟩
    exact (walk_append_iff t (s ++ [v])).mpr ⟨w, h2, h1⟩

theorem buildEdges_from {v : ContractVersion}
    {refs : List (String × ReferenceKind)} :
    ∀ e ∈ buildEdges v refs, e.fromVersion = v := by
  intro e he
  unfold buildEdges at he
  obtain ⟨r, _, rfl⟩ := List.mem_map.mp he
  rfl

theorem fresh_not_mem {g : GraphSnapshot} {v : ContractVersion}
    (h : ¬ hasVersionPair g v) : v ∉ g.nodes :=
  fun hv => h ⟨v, hv, rfl, rfl⟩

/-- A forward step of the candidate snapshot that avoids the new node on
both sides is a step of the base snapshot. -/
theorem step_candidate_project {g : GraphSnapshot} {v : ContractVersion}
    {refs : List (String × ReferenceKind)} {u w : ContractVersion}
    (hu : u ≠ v) (hw : w ≠ v)
    (h : fwdStep (candidate g v refs) u w) : fwdStep g u w := by
  obtain ⟨hwn, e, he, hef, het⟩ := h
  refine ⟨?_, e, ?_, hef, het⟩
  · rcases List.mem_append.mp hwn with h' | h'
    · exact h'
    · exact absurd (List.mem_singleton.mp h') hw
  · rcases List.mem_append.mp he with h' | h'
    · exact h'
    · exact absurd (hef.symm.trans (buildEdges_from e h')) hu

/-- A candidate walk avoiding the new node projects to the base snapshot. -/
theorem walk_candidate_project {g : GraphSnapshot} {v : ContractVersion}
    {refs : List (String × ReferenceKind)} {u w : ContractVersion}
    {l : List ContractVersion} (hu : u ≠ v) (hall : ∀ x ∈ l, x ≠ v)
    (h : IsWalk (fwdStep (candidate g v refs)) u l w) :
    IsWalk (fwdStep g) u l w := by
  induction l generalizing u with
  | nil => cases h; exact .nilW _
  | cons x t ih =>
      cases h with
      | consW hs ht =>
          have hx : x ≠ v := hall x (List.mem_cons_self x t)
          exact .consW (step_candidate_project hu hx hs)
            (ih hx (fun y hy => hall y (List.mem_cons_of_mem x hy)) ht)

theorem commit_ok_elim {g : GraphSnapshot} {v : ContractVersion}
    {refs : List (String × ReferenceKind)} {g' : GraphSnapshot}
    (h : commitNewVersion g v refs = .ok g') :
    ¬ hasVersionPair g v ∧ detectCycle (candidate g v refs) v = false ∧
      g' = candidate g v refs := by
  unfold commitNewVersion at h
  split_ifs at h with h1 h2
  exact ⟨h1, by simpa using h2, (Except.ok.inj h).symm⟩

/-- A nonempty closed walk in the candidate snapshot forces the detector to
fire at the new node, provided the base snapshot was acyclic. -/
theorem candidate_cycle_detected {g : GraphSnapshot} {v : ContractVersion}
    {refs : List (String × ReferenceKind)} (hac : Acyclic g)
    {w : ContractVersion} {l : List ContractVersion} (hl : l ≠ [])
    (hwalk : IsWalk (fwdStep (candidate g v refs)) w l w) :
    detectCycle (candidate g v refs) v = true := by
  by_cases hv : v ∈ w :: l
  · obtain ⟨l', hl', hw'⟩ := closed_walk_rotate hwalk hl hv
    exact detectCycle_iff.mpr ⟨l', hl', hw'⟩
  · exfalso
    have hwv : w ≠ v := fun h => hv (h ▸ List.mem_cons_self w l)
    have hallv : ∀ x ∈ l, x ≠ v :=
      fun x hx h => hv (h ▸ List.mem_cons_of_mem w hx)
    exact hac w l hl (walk_candidate_project hwv hallv hwalk)

theorem commit_ok_preserves {g : GraphSnapshot} {v : ContractVersion}
    {refs : List (String × ReferenceKind)} {g' : GraphSnapshot}
    (hwf : EdgesWF g) (hac : Acyclic g)
    (h : commitNewVersion g v refs = .ok g') : Acyclic g' ∧ EdgesWF g' := by
  obtain ⟨hdup, hdet, rfl⟩ := commit_ok_elim h
  constructor
  · intro w l hl hwalk
    have := candidate_cycle_detected hac hl hwalk
    rw [hdet] at this
    cases this
  · intro e he
    rcases List.mem_append.mp he with h' | h'
    · exact List.mem_append_left _ (hwf e h')
    · exact List.mem_append_right _
        (by rw [buildEdges_from e h']; exact List.mem_singleton.mpr rfl)

/-- Exhaustive case analysis of one `publish` call. -/
theorem publish_cases {α : Type} [DecidableEq α] (st : EngineState α)
    (r : PublishRequest) :
    (∃ e, extract r.descr = .error e ∧ publish st r = (st, some e)) ∨
    (∃ refs e, extract r.descr = .ok refs ∧
      commitNewVersion st.snapshot (reqNode r) refs = .error e ∧
      publish st r = (st, some e)) ∨
    (∃ refs g2, extract r.descr = .ok refs ∧
      commitNewVersion st.snapshot (reqNode r) refs = .ok g2 ∧
      publish st r = (⟨g2, invalidateAll st.cache⟩, none)) := by
  cases hex : extract r.descr with
  | error e => exact Or.inl ⟨e, rfl, by simp [publish, hex]⟩
  | ok refs =>
      cases hc : commitNewVersion st.snapshot (reqNode r) refs with
      | error e => exact Or.inr (Or.inl ⟨refs, e, rfl, hc, by simp [publish, hex, hc]⟩)
      | ok g2 => exact Or.inr (Or.inr ⟨refs, g2, rfl, hc, by simp [publish, hex, hc]⟩)

theorem publish_error_keeps_state {α : Type} [DecidableEq α]
    (st : EngineState α) (r : PublishRequest)
    (h : (publish st r).2.isSome) : (publish st r).1 = st := by
  rcases publish_cases st r with ⟨e, _, heq⟩ | ⟨refs, e, _, _, heq⟩ |
    ⟨refs, g2, _, _, heq⟩
  · rw [heq]
  · rw [heq]
  · rw [heq] at h; simp at h

theorem publish_preserves_inv {α : Type} [DecidableEq α]
    (st : EngineState α) (r : PublishRequest)
    (h : Acyclic st.snapshot ∧ EdgesWF st.snapshot) :
    Acyclic (publish st r).1.snapshot ∧ EdgesWF (publish st r).1.snapshot := by
  rcases publish_cases st r with ⟨e, _, heq⟩ | ⟨refs, e, _, _, heq⟩ |
    ⟨refs, g2, _, hc, heq⟩
  · rw [heq]; exact h
  · rw [heq]; exact h
  · rw [heq]
    exact commit_ok_preserves h.2 h.1 hc

theorem runPublishes_inv (α : Type) [DecidableEq α]
    (rs : List PublishRequest) :
    Acyclic (runPublishes α rs).snapshot ∧
      EdgesWF (runPublishes α rs).snapshot := by
  have hstep : ∀ (rs' : List PublishRequest) (st : EngineState α),
      Acyclic st.snapshot ∧ EdgesWF st.snapshot →
      Acyclic (rs'.foldl (fun s r => (publish s r).1) st).snapshot ∧
        EdgesWF (rs'.foldl (fun s r => (publish s r).1) st).snapshot := by
    intro rs'
    induction rs' with
    | nil => intro st h; exact h
    | cons r t ih =>
        intro st h
        exact ih _ (publish_preserves_inv st r h)
  refine hstep rs (initialState α) ⟨?_, ?_⟩
  · intro v l hl hw
    cases hw with
    | nilW => exact hl rfl
    | consW hs _ => exact absurd hs.1 (by simp [initialState, emptySnapshot])
  · intro e he
    simp [initialState, emptySnapshot] at he

/-! ## Cache lemmas -/

theorem cacheGet_snd_epoch {α : Type} [DecidableEq α]
    (c : ResultCache α) (k : QueryKey) : (cacheGet c k).2.epoch = c.epoch := by
  unfold cacheGet
  cases findEntry c k with
  | none => rfl
  | some e => by_cases h : e.epoch = c.epoch <;> simp [h]

theorem applyOp_epoch_le {α : Type} [DecidableEq α]
    (c : ResultCache α) (o : CacheOp α) : c.epoch ≤ (applyOp c o).epoch := by
  cases o with
  | putOp k p => exact le_rfl
  | getOp k => rw [applyOp, cacheGet_snd_epoch]
  | invOp => exact Nat.le_succ _

theorem applyOps_epoch_le {α : Type} [DecidableEq α]
    (c : ResultCache α) (ops : List (CacheOp α)) :
    c.epoch ≤ (applyOps c ops).epoch := by
  induction ops generalizing c with
  | nil => exact le_rfl
  | cons o t ih =>
      exact le_trans (applyOp_epoch_le c o) (ih (applyOp c o))

theorem lookupServed_spec {α : Type} [DecidableEq α]
    {c : ResultCache α} {k : QueryKey} {e : CacheEntry α}
    (h : lookupServed c k = some e) :
    e ∈ c.entries ∧ e.epoch = c.epoch ∧ e.key = k := by
  unfold lookupServed at h
  cases hf : findEntry c k with
  | none => rw [hf] at h; cases h
  | some e2 =>
      rw [hf] at h
      dsimp only at h
      split_ifs at h with heq
      · obtain rfl := Option.some.inj h
        unfold findEntry at hf
        refine ⟨List.mem_of_find?_eq_some hf, heq, ?_⟩
        have := List.find?_some hf
        exact of_decide_eq_true this

/-! ## Query-order lemmas -/

theorem bfsAux_depth_gt {g : GraphSnapshot} :
    ∀ (fuel : Nat) (visited frontier : List ContractVersion) (i : Nat)
      (p : ContractVersion × Nat),
      p ∈ bfsAux g fuel visited frontier i → i < p.2 := by
  intro fuel
  induction fuel with
  | zero => intro _ _ _ p h; cases h
  | succ fuel ih =>
      intro visited frontier i p hp
      rw [bfsAux] at hp
      split_ifs at hp with hnil
      · cases hp
      · rcases List.mem_append.mp hp with h | h
        · obtain ⟨w, _, rfl⟩ := List.mem_map.mp h
          exact Nat.lt_succ_self i
        · exact Nat.lt_trans (Nat.lt_succ_self i) (ih _ _ _ p h)

theorem bfsAux_sorted {g : GraphSnapshot} :
    ∀ (fuel : Nat) (visited frontier : List ContractVersion) (i : Nat),
      (bfsAux g fuel visited frontier i).Pairwise impactLe := by
  intro fuel
  induction fuel with
  | zero => intro _ _ _; exact List.Pairwise.nil
  | succ fuel ih =>
      intro visited frontier i
      rw [bfsAux]
      split_ifs with hnil
      · exact List.Pairwise.nil
      · refine List.pairwise_append.mpr ⟨?_, ih _ _ _, ?_⟩
        · rw [List.pairwise_map]
          refine List.Pairwise.imp ?_ (List.sorted_insertionSort nodeLe _)
          intro a b hab
          exact Or.inr ⟨rfl, hab⟩
        · intro p hp q hq
          obtain ⟨w, _, rfl⟩ := List.mem_map.mp hp
          exact Or.inl (bfsAux_depth_gt fuel _ _ _ q hq)

/-! ## Distance lemmas for the breadth-first impact traversal -/

theorem walk_snoc {R : ContractVersion → ContractVersion → Prop}
    {u w x : ContractVersion} {l : List ContractVersion}
    (h : IsWalk R u l w) (hs : R w x) : IsWalk R u (l ++ [x]) x :=
  (walk_append_iff l [x]).mpr ⟨w, h, walk_singleton_iff.mpr ⟨hs, rfl⟩⟩

theorem distLe_mono {g : GraphSnapshot} {v w : ContractVersion}
    {d d2 : Nat} (h : distLe g v w d) (hd : d ≤ d2) : distLe g v w d2 := by
  obtain ⟨l, hlen, hw⟩ := h
  exact ⟨l, le_trans hlen hd, hw⟩

theorem distLe_zero_iff {g : GraphSnapshot} {v w : ContractVersion} :
    distLe g v w 0 ↔ w = v := by
  constructor
  · rintro ⟨l, hlen, hw⟩
    have : l = [] := List.eq_nil_of_length_eq_zero (Nat.le_zero.mp hlen)
    subst this
    cases hw
    rfl
  · rintro rfl
    exact ⟨[], Nat.le_refl 0, IsWalk.nilW w⟩

theorem exact_zero_iff {g : GraphSnapshot} {v w : ContractVersion} :
    exactDist g v w 0 ↔ w = v := by
  constructor
  · rintro ⟨hd, -⟩
    exact distLe_zero_iff.mp hd
  · rintro rfl
    exact ⟨distLe_zero_iff.mpr rfl, fun j hj => absurd hj (Nat.not_lt_zero j)⟩

theorem exists_exact_of_distLe {g : GraphSnapshot} {v w : ContractVersion} :
    ∀ d : Nat, distLe g v w d → ∃ j, j ≤ d ∧ exactDist g v w j := by
  intro d
  induction d with
  | zero =>
      intro hd
      exact ⟨0, le_rfl, hd, fun j hj => absurd hj (Nat.not_lt_zero j)⟩
  | succ d ih =>
      intro hd
      by_cases hprev : distLe g v w d
      · obtain ⟨j, hj, hex⟩ := ih hprev
        exact ⟨j, le_trans hj (Nat.le_succ d), hex⟩
      · refine ⟨d + 1, le_rfl, hd, ?_⟩
        intro j hj hdj
        exact hprev (distLe_mono hdj (by omega))

theorem exact_unique {g : GraphSnapshot} {v w : ContractVersion}
    {d1 d2 : Nat} (h1 : exactDist g v w d1) (h2 : exactDist g v w d2) :
    d1 = d2 := by
  by_contra hne
  rcases Nat.lt_or_ge d1 d2 with h | h
  · exact h2.2 d1 h h1.1
  · exact h1.2 d2 (by omega) h2.1

theorem exact_succ_pred {g : GraphSnapshot} {v w : ContractVersion} {d : Nat}
    (h : exactDist g v w (d + 1)) :
    ∃ u, exactDist g v u d ∧ revStep g u w := by
  obtain ⟨⟨l, hlen, hwalk⟩, hmin⟩ := h
  have hl : l ≠ [] := by
    intro h0
    subst h0
    cases hwalk
    exact hmin 0 (Nat.succ_pos d) ⟨[], Nat.le_refl 0, IsWalk.nilW v⟩
  obtain ⟨l2, u, rfl, hw2, hstep⟩ := walk_last_decomp hwalk hl
  have hlen2 : l2.length ≤ d := by
    simp only [List.length_append, List.length_singleton] at hlen
    omega
  obtain ⟨j, hj, hexu⟩ := exists_exact_of_distLe d ⟨l2, hlen2, hw2⟩
  have hji : j = d := by
    rcases Nat.lt_or_ge j d with hlt | hge
    · exfalso
      obtain ⟨⟨l3, hlen3, hw3⟩, -⟩ := hexu
      refine hmin (j + 1) (by omega) ⟨l3 ++ [w], ?_, walk_snoc hw3 hstep⟩
      simp only [List.length_append, List.length_singleton]
      omega
    · omega
  subst hji
  exact ⟨u, hexu, hstep⟩

theorem no_exact_above {g : GraphSnapshot} {v : ContractVersion} {i : Nat}
    (h : ∀ w, ¬ exactDist g v w (i + 1)) :
    ∀ dd, i < dd → ∀ w, ¬ exactDist g v w dd := by
  intro dd
  induction dd with
  | zero => intro h0; exact absurd h0 (Nat.not_lt_zero i)
  | succ d idh =>
      intro hless w hex
      rcases Nat.lt_or_ge i d with hlt | hge
      · obtain ⟨u, hexu, -⟩ := exact_succ_pred hex
        exact idh hlt u hexu
      · have hdi : d = i := by omega
        subst hdi
        exact h w hex

theorem mem_nextLevel {g : GraphSnapshot}
    {visited frontier : List ContractVersion} {w : ContractVersion} :
    w ∈ ((frontier.flatMap fun u => revSuccs g u).filter
      fun w2 => decide (¬ w2 ∈ visited)).dedup ↔
    ((∃ u ∈ frontier, revStep g u w) ∧ w ∉ visited) := by
  rw [List.mem_dedup, List.mem_filter]
  simp only [List.mem_flatMap, decide_eq_true_eq]
  constructor
  · rintro ⟨⟨u, hu, hw⟩, hnv⟩
    exact ⟨⟨u, hu, mem_revSuccs_iff.mp hw⟩, hnv⟩
  · rintro ⟨⟨u, hu, hw⟩, hnv⟩
    exact ⟨⟨u, hu, mem_revSuccs_iff.mpr hw⟩, hnv⟩

/-- The filtered frontier expansion holds exactly the nodes whose minimum
reverse distance from `v` is `i + 1`, given that `visited` holds those
within distance `i` and `frontier` those at exactly `i`. -/
theorem next_level_exact {g : GraphSnapshot} {v : ContractVersion}
    {visited frontier : List ContractVersion} {i : Nat}
    (hV : ∀ w, w ∈ visited ↔ distLe g v w i)
    (hF : ∀ w, w ∈ frontier ↔ exactDist g v w i) :
    ∀ w, w ∈ ((frontier.flatMap fun u => revSuccs g u).filter
      fun w2 => decide (¬ w2 ∈ visited)).dedup ↔ exactDist g v w (i + 1) := by
  intro w
  rw [mem_nextLevel]
  constructor
  · rintro ⟨⟨u, hu, hstep⟩, hnv⟩
    obtain ⟨⟨l, hlen, hwalk⟩, -⟩ := (hF u).mp hu
    refine ⟨⟨l ++ [w], ?_, walk_snoc hwalk hstep⟩, ?_⟩
    · simp only [List.length_append, List.length_singleton]
      omega
    · intro j hj hdj
      exact hnv ((hV w).mpr (distLe_mono hdj (by omega)))
  · intro hex
    have hnv : w ∉ visited := by
      intro hmem
      exact hex.2 i (Nat.lt_succ_self i) ((hV w).mp hmem)
    obtain ⟨⟨l, hlen, hwalk⟩, hmin⟩ := hex
    have hl : l ≠ [] := by
      intro h0
      subst h0
      cases hwalk
      exact hmin 0 (Nat.succ_pos i) ⟨[], Nat.le_refl 0, IsWalk.nilW v⟩
    obtain ⟨l2, u, rfl, hw2, hstep⟩ := walk_last_decomp hwalk hl
    have hlen2 : l2.length ≤ i := by
      simp only [List.length_append, List.length_singleton] at hlen
      omega
    obtain ⟨j, hj, hexu⟩ := exists_exact_of_distLe i ⟨l2, hlen2, hw2⟩
    have hji : j = i := by
      rcases Nat.lt_or_ge j i with hlt | hge
      · exfalso
        obtain ⟨⟨l3, hlen3, hw3⟩, -⟩ := hexu
        refine hmin (j + 1) (by omega) ⟨l3 ++ [w], ?_, walk_snoc hw3 hstep⟩
        simp only [List.length_append, List.length_singleton]
        omega
      · omega
    subst hji
    exact ⟨⟨u, (hF u).mpr hexu, hstep⟩, hnv⟩

/-- Main invariant of the breadth-first traversal: with `visited` holding
exactly the nodes within reverse distance `i` of `v` and `frontier` those at
exactly `i`, and enough fuel, `bfsAux` emits exactly the pairs `(w, d)` with
`i < d` the minimum reverse distance of `w`, each node at most once. -/
theorem bfsAux_spec {g : GraphSnapshot} {v : ContractVersion} :
    ∀ (fuel : Nat) (visited frontier : List ContractVersion) (i : Nat),
      (∀ w, w ∈ visited ↔ distLe g v w i) →
      (∀ w, w ∈ frontier ↔ exactDist g v w i) →
      visited.Nodup →
      (∀ w ∈ visited, w ∈ g.nodes) →
      g.nodes.length + 1 ≤ fuel + visited.length →
      (∀ (w : ContractVersion) (dd : Nat),
        ((w, dd) ∈ bfsAux g fuel visited frontier i ↔
          (i < dd ∧ exactDist g v w dd)))
      ∧ ((bfsAux g fuel visited frontier i).map Prod.fst).Nodup := by
  intro fuel
  induction fuel with
  | zero =>
      intro visited frontier i hV hF hVnd hVsub hfuel
      exact absurd hVnd (long_list_not_nodup hVsub (by omega))
  | succ fuel ih =>
      intro visited frontier i hV hF hVnd hVsub hfuel
      have hNext := next_level_exact hV hF
      rw [bfsAux]
      set nx := ((frontier.flatMap fun u => revSuccs g u).filter
        fun w2 => decide (¬ w2 ∈ visited)).dedup with hnxdef
      split_ifs with hnil
      · have hNone : ∀ w2, ¬ exactDist g v w2 (i + 1) := by
          intro w2 hex
          have hmem := (hNext w2).mpr hex
          rw [hnil] at hmem
          cases hmem
        constructor
        · intro w dd
          simp only [List.not_mem_nil, false_iff, not_and]
          intro hdd hex
          exact no_exact_above hNone dd hdd w hex
        · simp
      · have hnxNodes : ∀ w ∈ nx, w ∈ g.nodes := by
          intro w hw
          obtain ⟨⟨u, hu, hstep⟩, -⟩ := mem_nextLevel.mp hw
          exact hstep.1
        have hnxNotVis : ∀ w ∈ nx, w ∉ visited := by
          intro w hw
          exact (mem_nextLevel.mp hw).2
        have hV2 : ∀ w, w ∈ nx ++ visited ↔ distLe g v w (i + 1) := by
          intro w
          rw [List.mem_append]
          constructor
          · rintro (h | h)
            · exact ((hNext w).mp h).1
            · exact distLe_mono ((hV w).mp h) (Nat.le_succ i)
          · intro hd
            obtain ⟨j, hj, hex⟩ := exists_exact_of_distLe (i + 1) hd
            rcases Nat.eq_or_lt_of_le hj with heq | hlt
            · subst heq
              exact Or.inl ((hNext w).mpr hex)
            · exact Or.inr ((hV w).mpr (distLe_mono hex.1 (by omega)))
        have hnd2 : (nx ++ visited).Nodup :=
          List.nodup_append.mpr
            ⟨List.nodup_dedup _, hVnd, fun w hw => hnxNotVis w hw⟩
        have hsub2 : ∀ w ∈ nx ++ visited, w ∈ g.nodes := by
          intro w hw
          rcases List.mem_append.mp hw with h | h
          · exact hnxNodes w h
          · exact hVsub w h
        have hfuel2 : g.nodes.length + 1 ≤ fuel + (nx ++ visited).length := by
          rw [List.length_append]
          have h1 : 0 < nx.length := List.length_pos.mpr hnil
          omega
        obtain ⟨ihMem, ihNd⟩ := ih (nx ++ visited) nx (i + 1) hV2 hNext hnd2
          hsub2 hfuel2
        have hblock : ∀ (w : ContractVersion) (dd : Nat),
            (w, dd) ∈ (sortNodes nx).map (fun w2 => (w2, i + 1)) ↔
              (dd = i + 1 ∧ exactDist g v w (i + 1)) := by
          intro w dd
          rw [List.mem_map]
          constructor
          · rintro ⟨w2, hw2, heq⟩
            have h1 : w2 = w := congrArg Prod.fst heq
            have h2 : i + 1 = dd := congrArg Prod.snd heq
            subst h1
            refine ⟨h2.symm, (hNext w2).mp ?_⟩
            exact (List.Perm.mem_iff (List.perm_insertionSort nodeLe nx)).mp hw2
          · rintro ⟨rfl, hex⟩
            exact ⟨w, (List.Perm.mem_iff
              (List.perm_insertionSort nodeLe nx)).mpr ((hNext w).mpr hex), rfl⟩
        constructor
        · intro w dd
          rw [List.mem_append, hblock, ihMem]
          constructor
          · rintro (⟨rfl, hex⟩ | ⟨hdd, hex⟩)
            · exact ⟨Nat.lt_succ_self i, hex⟩
            · exact ⟨by omega, hex⟩
          · rintro ⟨hdd, hex⟩
            rcases Nat.eq_or_lt_of_le (Nat.succ_le_of_lt hdd) with heq | hlt
            · subst heq
              exact Or.inl ⟨rfl, hex⟩
            · exact Or.inr ⟨hlt, hex⟩
        · rw [List.map_append]
          have hfst : (((sortNodes nx).map fun w2 => (w2, i + 1)).map
              Prod.fst) = sortNodes nx := by
            rw [List.map_map]
            exact List.map_id _
          rw [hfst]
          refine List.nodup_append.mpr ⟨?_, ihNd, ?_⟩
          · exact (List.Perm.nodup_iff
              (List.perm_insertionSort nodeLe nx)).mpr (List.nodup_dedup _)
          · intro w hw hw2
            have hexw : exactDist g v w (i + 1) :=
              (hNext w).mp ((List.Perm.mem_iff
                (List.perm_insertionSort nodeLe nx)).mp hw)
            obtain ⟨p, hp, hpw⟩ := List.mem_map.mp hw2
            have hpmem : (p.1, p.2) ∈ bfsAux g fuel (nx ++ visited) nx (i + 1) := by
              rw [Prod.mk.eta]
              exact hp
            obtain ⟨hgt, hexp⟩ := (ihMem p.1 p.2).mp hpmem
            rw [hpw] at hexp
            have := exact_unique hexw hexp
            omega

theorem walk_reverse_mem {g : GraphSnapshot} :
    ∀ {u w : ContractVersion} {l : List ContractVersion},
      u ∈ g.nodes → IsWalk (revStep g) u l w →
      ∃ l', l'.length = l.length ∧ IsWalk (fwdStep g) w l' u := by
  intro u w l
  induction l generalizing u with
  | nil =>
      intro hu h
      cases h
      exact ⟨[], rfl, IsWalk.nilW _⟩
  | cons x t ihl =>
      intro hu h
      cases h with
      | consW hs ht =>
          obtain ⟨l', hlen, hw'⟩ := ihl hs.1 ht
          refine ⟨l' ++ [u], by simp [hlen], walk_snoc hw' ?_⟩
          obtain ⟨hxn, e, he, hef, het⟩ := hs
          exact ⟨hu, e, he, hef, het⟩

/-! ## Claim theorems -/

theorem commit_cycle_error {g : GraphSnapshot} {v : ContractVersion}
    {refs : List (String × ReferenceKind)}
    (hdup : ¬ hasVersionPair g v)
    (hdet : detectCycle (candidate g v refs) v = true) :
    commitNewVersion g v refs = .error .cycleDetectedError := by
  unfold commitNewVersion
  rw [if_neg hdup, if_pos hdet]

/-- C1: every sequence of Publish operations leaves the committed graph with
no directed path returning to its origin version node; any failing Publish
leaves the engine state (current snapshot and its epoch) unchanged; and a
Publish whose extracted edge set would create a cycle in the candidate
snapshot is rejected with `CycleDetectedError`, again leaving the state
unchanged. -/
theorem publish_acyclicity_and_cycle_rejection :
    (∀ (α : Type) [DecidableEq α] (rs : List PublishRequest),
      Acyclic (runPublishes α rs).snapshot)
    ∧ (∀ (α : Type) [DecidableEq α] (st : EngineState α) (r : PublishRequest),
        (publish st r).2.isSome → (publish st r).1 = st)
    ∧ (∀ (α : Type) [DecidableEq α] (st : EngineState α) (r : PublishRequest)
        (refs : List (String × ReferenceKind)),
        Acyclic st.snapshot →
        extract r.descr = .ok refs →
        ¬ hasVersionPair st.snapshot (reqNode r) →
        (∃ (w : ContractVersion) (l : List ContractVersion), l ≠ [] ∧
          IsWalk (fwdStep (candidate st.snapshot (reqNode r) refs)) w l w) →
        publish st r = (st, some .cycleDetectedError)) := by
  refine ⟨?_, ?_, ?_⟩
  · intro α _ rs
    exact (runPublishes_inv α rs).1
  · intro α _ st r h
    exact publish_error_keeps_state st r h
  · intro α _ st r refs hac hex hdup hcyc
    obtain ⟨w, l, hl, hwalk⟩ := hcyc
    have hdet := candidate_cycle_detected hac hl hwalk
    have hcommit := commit_cycle_error hdup hdet
    rcases publish_cases st r with ⟨e, hex2, heq⟩ | ⟨refs2, e, hex2, hc2, heq⟩ |
      ⟨refs2, g2, hex2, hc2, heq⟩
    · rw [hex] at hex2; cases hex2
    · rw [hex] at hex2
      obtain rfl := Except.ok.inj hex2
      have : Except.error (α := GraphSnapshot) e =
          Except.error EngineError.cycleDetectedError := hc2.symm.trans hcommit
      obtain rfl := Except.error.inj this
      exact heq
    · rw [hex] at hex2
      obtain rfl := Except.ok.inj hex2
      rw [hc2] at hcommit
      cases hcommit

/-- Witness for C1 at the spec's §8 scenario: publishing a second version of
contract A that references C is rejected with `CycleDetectedError` and the
engine state is unchanged. -/
theorem publish_acyclicity_and_cycle_rejection_witness :
    publish exState exReq = (exState, some EngineError.cycleDetectedError) := by
  refine publish_acyclicity_and_cycle_rejection.2.2 Nat exState exReq
    [("C", .clientKind)] (acyclic_of_detect_false (by decide)) (by decide)
    (by decide) ⟨reqNode exReq, [exC, exB, reqNode exReq], by simp, ?_⟩
  exact IsWalk.consW (by decide)
    (IsWalk.consW (by decide) (IsWalk.consW (by decide) (IsWalk.nilW _)))

/-- C3: `CommitNewVersion` returns `DuplicateVersionError` whenever the
`(contractId, versionLabel)` pair already exists as a node of the current
graph, and the publish then leaves the engine state — in particular the
graph — unchanged. -/
theorem commit_duplicate_rejected :
    (∀ (g : GraphSnapshot) (v : ContractVersion)
        (refs : List (String × ReferenceKind)),
        hasVersionPair g v →
        commitNewVersion g v refs = .error .duplicateVersionError)
    ∧ (∀ (α : Type) [DecidableEq α] (st : EngineState α) (r : PublishRequest)
        (refs : List (String × ReferenceKind)),
        extract r.descr = .ok refs →
        hasVersionPair st.snapshot (reqNode r) →
        publish st r = (st, some .duplicateVersionError)) := by
  constructor
  · intro g v refs hdup
    unfold commitNewVersion
    rw [if_pos hdup]
  · intro α _ st r refs hex hdup
    have hcommit : commitNewVersion st.snapshot (reqNode r) refs =
        .error .duplicateVersionError := by
      unfold commitNewVersion
      rw [if_pos hdup]
    rcases publish_cases st r with ⟨e, hex2, heq⟩ | ⟨refs2, e, hex2, hc2, heq⟩ |
      ⟨refs2, g2, hex2, hc2, heq⟩
    · rw [hex] at hex2; cases hex2
    · rw [hex] at hex2
      obtain rfl := Except.ok.inj hex2
      have : Except.error (α := GraphSnapshot) e =
          Except.error EngineError.duplicateVersionError := hc2.symm.trans hcommit
      obtain rfl := Except.error.inj this
      exact heq
    · rw [hex] at hex2
      obtain rfl := Except.ok.inj hex2
      rw [hc2] at hcommit
      cases hcommit

/-- Witness for C3: re-submitting contract A's version label "1" against the
§8 example snapshot is rejected as a duplicate. -/
theorem commit_duplicate_rejected_witness :
    commitNewVersion exSnapshot ⟨"A", "1", "otherHash"⟩ [] =
      .error .duplicateVersionError :=
  commit_duplicate_rejected.1 exSnapshot ⟨"A", "1", "otherHash"⟩ [] (by decide)

/-- C4: `Extract` fails with `MalformedInterfaceError` exactly when some
declared reference misses its identifier field; an interface description
declaring no references always succeeds with the empty set; and no
self-reference ever appears in a successful extraction's output. -/
theorem extract_malformed_empty_self :
    (∀ d : InterfaceDescription,
      extract d = .error .malformedInterfaceError ↔
        ∃ r ∈ d.decls, r.identifier = none)
    ∧ (∀ d : InterfaceDescription, d.decls = [] → extract d = .ok [])
    ∧ (∀ (d : InterfaceDescription) (refs : List (String × ReferenceKind)),
        extract d = .ok refs → ∀ p ∈ refs, p.1 ≠ d.selfId) := by
  refine ⟨?_, ?_, ?_⟩
  · intro d
    unfold extract
    split_ifs with hany
    · simp only [true_iff]
      obtain ⟨r, hr, hnone⟩ := List.any_eq_true.mp hany
      exact ⟨r, hr, Option.isNone_iff_eq_none.mp hnone⟩
    · simp only [reduceCtorEq, false_iff]
      rintro ⟨r, hr, hnone⟩
      exact hany (List.any_eq_true.mpr
        ⟨r, hr, Option.isNone_iff_eq_none.mpr hnone⟩)
  · intro d h
    unfold extract
    rw [h]
    rfl
  · intro d refs hok p hp
    unfold extract at hok
    split_ifs at hok
    obtain rfl := Except.ok.inj hok
    have hp2 := List.mem_dedup.mp hp
    have := (List.mem_filter.mp hp2).2
    exact of_decide_eq_true this

/-- Witness for C4: an interface declaring no references extracts to the
empty set. -/
theorem extract_malformed_empty_self_witness :
    extract ⟨"X", []⟩ = .ok [] :=
  extract_malformed_empty_self.2.1 ⟨"X", []⟩ rfl

/-- C6: after a successful commit of version `v`, the new snapshot holds the
edge `(v, t, k)` exactly once for each `(t, k)` in the committed reference
set and not at all otherwise — so duplicate `(from, to, kind)` submissions
collapse to one edge while edges differing only in kind stay distinct. -/
theorem commit_edge_multiplicity {g : GraphSnapshot} {v : ContractVersion}
    {refs : List (String × ReferenceKind)} {g' : GraphSnapshot}
    (hwf : EdgesWF g) (hc : commitNewVersion g v refs = .ok g') :
    (∀ (t : String) (k : ReferenceKind),
      g'.edges.count ⟨v, t, k⟩ = if (t, k) ∈ refs then 1 else 0)
    ∧ (∀ (t : String) (k1 k2 : ReferenceKind),
        (t, k1) ∈ refs → (t, k2) ∈ refs →
        (⟨v, t, k1⟩ : DependencyEdge) ∈ g'.edges ∧
          (⟨v, t, k2⟩ : DependencyEdge) ∈ g'.edges) := by
  obtain ⟨hdup, _, rfl⟩ := commit_ok_elim hc
  have hnotmem : ∀ (t : String) (k : ReferenceKind),
      (⟨v, t, k⟩ : DependencyEdge) ∉ g.edges := by
    intro t k hmem
    exact hdup ⟨v, hwf _ hmem, rfl, rfl⟩
  have hmemBuild : ∀ (t : String) (k : ReferenceKind),
      (⟨v, t, k⟩ : DependencyEdge) ∈ buildEdges v refs ↔ (t, k) ∈ refs := by
    intro t k
    unfold buildEdges
    rw [List.mem_map]
    constructor
    · rintro ⟨r, hr, heq⟩
      have h1 : r.1 = t := congrArg DependencyEdge.toContractId heq
      have h2 : r.2 = k := congrArg DependencyEdge.referenceKind heq
      have hr2 : r = (t, k) := Prod.ext h1 h2
      rw [hr2] at hr
      exact List.mem_dedup.mp hr
    · intro h
      exact ⟨(t, k), List.mem_dedup.mpr h, rfl⟩
  constructor
  · intro t k
    show (g.edges ++ buildEdges v refs).count _ = _
    rw [List.count_append]
    rw [List.count_eq_zero.mpr (hnotmem t k)]
    by_cases hmem : (t, k) ∈ refs
    · rw [if_pos hmem]
      have hnd : (buildEdges v refs).Nodup := by
        unfold buildEdges
        refine List.Nodup.map ?_ (List.nodup_dedup refs)
        intro a b hab
        have h1 : a.1 = b.1 := congrArg DependencyEdge.toContractId hab
        have h2 : a.2 = b.2 := congrArg DependencyEdge.referenceKind hab
        exact Prod.ext h1 h2
      rw [List.count_eq_one_of_mem hnd ((hmemBuild t k).mpr hmem)]
    · rw [if_neg hmem]
      rw [List.count_eq_zero.mpr (fun hm => hmem ((hmemBuild t k).mp hm))]
  · intro t k1 k2 h1 h2
    exact ⟨List.mem_append_right _ ((hmemBuild t k1).mpr h1),
      List.mem_append_right _ ((hmemBuild t k2).mpr h2)⟩

/-- Witness for C6: committing contract D with the reference list
`[(A, client), (A, client), (A, import)]` yields exactly one
`(D, A, client)` edge. -/
theorem commit_edge_multiplicity_witness :
    (candidate exSnapshot ⟨"D", "1", "hD"⟩
        [("A", .clientKind), ("A", .clientKind), ("A", .importKind)]).edges.count
      ⟨⟨"D", "1", "hD"⟩, "A", ReferenceKind.clientKind⟩ = 1 := by
  have hc : commitNewVersion exSnapshot ⟨"D", "1", "hD"⟩
      [("A", .clientKind), ("A", .clientKind), ("A", .importKind)] =
      .ok (candidate exSnapshot ⟨"D", "1", "hD"⟩
        [("A", .clientKind), ("A", .clientKind), ("A", .importKind)]) := by decide
  have h := (commit_edge_multiplicity (by decide) hc).1 "A" ReferenceKind.clientKind
  simpa using h

/-- C5: the Result Cache never serves a stale entry — a `Get` whose stored
entry carries a different epoch misses and evicts it; a served entry's epoch
always equals the cache's current epoch; every successful publish increments
the cache epoch via `InvalidateAll`; and after an `InvalidateAll`, no entry
that existed before it is ever served again, whatever cache operations
follow. -/
theorem cache_never_serves_stale :
    (∀ (α : Type) [DecidableEq α] (c : ResultCache α) (k : QueryKey)
        (e : CacheEntry α),
        findEntry c k = some e → e.epoch ≠ c.epoch →
        (cacheGet c k).1 = none ∧ ∀ e2 ∈ (cacheGet c k).2.entries, e2.key ≠ k)
    ∧ (∀ (α : Type) [DecidableEq α] (c : ResultCache α) (k : QueryKey)
        (e : CacheEntry α), lookupServed c k = some e → e.epoch = c.epoch)
    ∧ (∀ (α : Type) [DecidableEq α] (st : EngineState α) (r : PublishRequest)
        (st2 : EngineState α), publish st r = (st2, none) →
        st2.cache.epoch = st.cache.epoch + 1)
    ∧ (∀ (α : Type) [DecidableEq α] (c : ResultCache α), CacheWF c →
        ∀ (ops : List (CacheOp α)) (k : QueryKey) (e : CacheEntry α),
          lookupServed (applyOps (invalidateAll c) ops) k = some e →
          e ∉ c.entries) := by
  refine ⟨?_, ?_, ?_, ?_⟩
  · intro α _ c k e hfind hne
    unfold cacheGet
    rw [hfind]
    dsimp only
    rw [if_neg hne]
    refine ⟨rfl, ?_⟩
    intro e2 he2
    have := (List.mem_filter.mp he2).2
    exact of_decide_eq_true this
  · intro α _ c k e h
    exact (lookupServed_spec h).2.1
  · intro α _ st r st2 hpub
    rcases publish_cases st r with ⟨e, _, heq⟩ | ⟨refs, e, _, _, heq⟩ |
      ⟨refs, g2, _, _, heq⟩
    · rw [heq] at hpub; cases hpub
    · rw [heq] at hpub; cases hpub
    · rw [heq] at hpub
      have h1 : (⟨g2, invalidateAll st.cache⟩ : EngineState α) = st2 :=
        congrArg Prod.fst hpub
      rw [← h1]
      rfl
  · intro α _ c hwf ops k e hserved hmem
    have hspec := lookupServed_spec hserved
    have h1 : e.epoch ≤ c.epoch := hwf e hmem
    have h2 : c.epoch + 1 ≤ (applyOps (invalidateAll c) ops).epoch :=
      applyOps_epoch_le (invalidateAll c) ops
    rw [hspec.2.1] at h1
    omega

/-- Witness for C5: a cache at epoch 5 holding an entry stamped at epoch 3
misses on `Get` for that entry's key. -/
theorem cache_never_serves_stale_witness :
    (cacheGet (⟨5, [⟨⟨.dependenciesQ, "A"⟩, 3, (42 : Nat)⟩]⟩ : ResultCache Nat)
      ⟨.dependenciesQ, "A"⟩).1 = none :=
  (cache_never_serves_stale.1 Nat
    ⟨5, [⟨⟨.dependenciesQ, "A"⟩, 3, 42⟩]⟩ ⟨.dependenciesQ, "A"⟩
    ⟨⟨.dependenciesQ, "A"⟩, 3, 42⟩ (by decide) (by decide)).1

/-- C7: the query operations are deterministic — equal snapshots and
arguments give identical ordered results, each emitted in its documented
canonical order (`Dependencies` by `(referenceKind, targetContractId)`,
`Dependents` by `(fromVersion, referenceKind)`, `ImpactAnalysis` by
ascending depth then `(contractId, versionLabel)`). -/
theorem queries_deterministic_ordered :
    (∀ (g : GraphSnapshot) (v : ContractVersion),
      dependencies g v = dependencies g v ∧
        (dependencies g v).Pairwise depEdgeLe)
    ∧ (∀ (g : GraphSnapshot) (cid : String),
      dependents g cid = dependents g cid ∧
        (dependents g cid).Pairwise depPairLe)
    ∧ (∀ (g : GraphSnapshot) (v : ContractVersion),
      impactAnalysis g v = impactAnalysis g v ∧
        (impactAnalysis g v).Pairwise impactLe) := by
  refine ⟨fun g v => ⟨rfl, ?_⟩, fun g cid => ⟨rfl, ?_⟩, fun g v => ⟨rfl, ?_⟩⟩
  · exact List.sorted_insertionSort depEdgeLe _
  · exact List.sorted_insertionSort depPairLe _
  · exact bfsAux_sorted _ _ _ _

/-- C8: with `totalContracts = 0` the guarded success-rate computation
yields exactly `0`, and the rendered "Verification Success" value is
`"0.0%"`. -/
theorem successRate_zero_total :
    ∀ p : PublisherResponse, p.totalContracts = 0 →
      successRate p = 0 ∧ successDisplay p = "0.0%" := by
  intro p h
  have h1 : successRate p = 0 := by
    unfold successRate
    rw [h]
    rfl
  refine ⟨h1, ?_⟩
  unfold successDisplay
  rw [h1]
  rfl

/-- Witness for C8: a publisher with no contracts displays "0.0%". -/
theorem successRate_zero_total_witness :
    successRate ⟨0, 7, 2⟩ = 0 ∧ successDisplay ⟨0, 7, 2⟩ = "0.0%" :=
  successRate_zero_total ⟨0, 7, 2⟩ rfl

/-- C9 counterexample: the lookup is not total as claimed — for the status
string "toString" the prototype-chain lookup is truthy, so the `||` fallback
never fires and the component fails to render instead of showing the pending
badge. -/
theorem verificationBadge_proto_counterexample :
    renderBadge "toString" = BadgeRender.renderFailure ∧
    renderBadge "toString" ≠ BadgeRender.badge pendingBadge := by
  decide

/-- C9 (amended): `VerificationBadge`'s lookup maps each of the statuses
"verified", "failed" and "pending" to its own badge configuration, and any
other status value that is not an inherited `Object.prototype` member name
falls back to the pending configuration; for a status naming an inherited
`Object.prototype` member the fallback does not fire and the render
fails. -/
theorem verificationBadge_total_amended :
    renderBadge "verified" = BadgeRender.badge verifiedBadge ∧
    renderBadge "failed" = BadgeRender.badge failedBadge ∧
    renderBadge "pending" = BadgeRender.badge pendingBadge ∧
    (∀ s : String, s ≠ "verified" → s ≠ "failed" →
      s ∉ objectProtoMembers → renderBadge s = BadgeRender.badge pendingBadge) ∧
    (∀ s : String, s ≠ "verified" → s ≠ "failed" → s ≠ "pending" →
      s ∈ objectProtoMembers → renderBadge s = BadgeRender.renderFailure) := by
  refine ⟨by decide, by decide, by decide, ?_, ?_⟩
  · intro s h1 h2 h3
    unfold renderBadge
    rw [if_neg h1, if_neg h2]
    by_cases hp : s = "pending"
    · rw [if_pos hp]
    · rw [if_neg hp, if_neg h3]
  · intro s h1 h2 h3 h4
    unfold renderBadge
    rw [if_neg h1, if_neg h2, if_neg h3, if_pos h4]

/-- Witness for C9: an unexpected status string that is not an
`Object.prototype` member name renders the pending badge. -/
theorem verificationBadge_total_amended_witness :
    renderBadge "unknown" = BadgeRender.badge pendingBadge :=
  verificationBadge_total_amended.2.2.2.1 "unknown" (by decide) (by decide)
    (by decide)

/-- C10: the activity timeline renders the events most-recent-first — the
displayed list is a permutation of the caller's events sorted by descending
timestamp — and the caller's array itself is left unchanged (the sort runs
on a copy). -/
theorem timeline_sorted_nonmutating :
    ∀ l : List ActivityEvent,
      (renderTimeline l).1 = l ∧
      (renderTimeline l).2.Perm l ∧
      (renderTimeline l).2.Pairwise newerFirst := by
  intro l
  exact ⟨rfl, List.perm_insertionSort newerFirst l,
    List.sorted_insertionSort newerFirst l⟩

/-- C2: for every version node `v` of an acyclic snapshot, `ImpactAnalysis`
returns exactly the set of nodes reachable from `v` by following reverse
(dependent) edges transitively, each node exactly once, annotated with its
minimum hop distance from `v`, ordered by ascending depth and then by
`(contractId, versionLabel)` within each depth level. -/
theorem impactAnalysis_correct (g : GraphSnapshot) (v : ContractVersion)
    (hv : v ∈ g.nodes) (hac : Acyclic g) :
    (∀ (w : ContractVersion) (dd : Nat),
      ((w, dd) ∈ impactAnalysis g v ↔
        RevReachable g v w ∧ exactDist g v w dd))
    ∧ ((impactAnalysis g v).map Prod.fst).Nodup
    ∧ (impactAnalysis g v).Pairwise impactLe := by
  have hV0 : ∀ w, w ∈ [v] ↔ distLe g v w 0 := by
    intro w
    rw [List.mem_singleton, distLe_zero_iff]
  have hF0 : ∀ w, w ∈ [v] ↔ exactDist g v w 0 := by
    intro w
    rw [List.mem_singleton, exact_zero_iff]
  have hsub0 : ∀ w ∈ [v], w ∈ g.nodes := by
    intro w hw
    rw [List.mem_singleton] at hw
    subst hw
    exact hv
  have hfuel0 : g.nodes.length + 1 ≤
      g.nodes.length + ([v] : List ContractVersion).length := by simp
  obtain ⟨hMem, hNd⟩ := bfsAux_spec g.nodes.length [v] [v] 0 hV0 hF0
    (List.nodup_singleton v) hsub0 hfuel0
  refine ⟨?_, hNd, bfsAux_sorted _ _ _ _⟩
  intro w dd
  rw [show impactAnalysis g v = bfsAux g g.nodes.length [v] [v] 0 from rfl,
    hMem w dd]
  constructor
  · rintro ⟨hdd, hex⟩
    refine ⟨?_, hex⟩
    obtain ⟨⟨l, hlen, hwalk⟩, hmin⟩ := hex
    refine ⟨l, ?_, hwalk⟩
    intro h0
    subst h0
    cases hwalk
    exact hmin 0 hdd ⟨[], Nat.le_refl 0, IsWalk.nilW v⟩
  · rintro ⟨⟨l, hl, hwalk⟩, hex⟩
    refine ⟨?_, hex⟩
    rcases Nat.eq_zero_or_pos dd with h0 | h0
    · exfalso
      subst h0
      have hwv : w = v := exact_zero_iff.mp hex
      subst hwv
      obtain ⟨l', hlen', hw'⟩ := walk_reverse_mem hv hwalk
      have hl' : l' ≠ [] := by
        intro h
        subst h
        have hz : l.length = 0 := by simpa using hlen'.symm
        exact hl (List.eq_nil_of_length_eq_zero hz)
      exact hac w l' hl' hw'
    · exact h0

/-- Witness for C2: in the §8 example, B appears in `ImpactAnalysis(A)` at
depth 1 and is therefore reverse-reachable from A. -/
theorem impactAnalysis_correct_witness :
    RevReachable exSnapshot exA exB :=
  (((impactAnalysis_correct exSnapshot exA (by decide)
      (acyclic_of_detect_false (by decide))).1 exB 1).mp (by decide)).1

end SorobanRegistry
